import Mathlib

/-!
Verification of the ingestion pipeline in `src/seed_data.py`
(seed_milvus, seed_milvus_live, connect_to_milvus, load_data_from_local).

The Python values appearing in metadata dictionaries are modelled by `Value`
(strings, integers, and Python's `None`); truthiness follows Python: `None`,
the empty string and `0` are falsy.  Metadata dictionaries are association
lists, documents carry a content value and a metadata mapping.  The external
Milvus client and `uuid4` are outside the repository; they are modelled from
the spec where indicated.
-/

namespace SeedData

/-- Values stored in a metadata dictionary: strings, integers, or Python `None`
(also standing in for an absent key when read through `dict.get`). -/
inductive Value where
  | str (s : String)
  | int (n : Int)
  | none
deriving DecidableEq, Repr

/-- Python truthiness restricted to the values of `Value`: `None`, `""` and `0`
are falsy, everything else is truthy. -/
def Value.truthy : Value → Bool
  | .str s => s ≠ ""
  | .int n => n ≠ 0
  | .none => false

/-- A Python dictionary with string keys, as an association list. -/
abbrev Metadata : Type := List (String × Value)

/-- Embeds `d.get(k)`: the first value bound to `k`, or `None` when `k` is
absent. -/
def Metadata.get (m : Metadata) (k : String) : Value :=
  match List.find? (fun p => p.1 = k) m with
  | Option.some p => p.2
  | Option.none => Value.none

/-- The keys of the dictionary, in order. -/
def Metadata.keys (m : Metadata) : List String :=
  List.map Prod.fst m

/-- Embeds the Python idiom `x or d`: `x` when truthy, otherwise `d`. -/
def orDefault (v d : Value) : Value :=
  if v.truthy then v else d

/-- A langchain `Document` and also a raw local-file record: a content value
plus a metadata mapping.  For raw local records `page_content` is read with
`dict.get`, so an absent content key is `Value.none`. -/
structure Document where
  page_content : Value
  metadata : Metadata
deriving DecidableEq, Repr

/-- Embeds the metadata dictionary literal built at `seed_data.py` lines 53-61
and 102-110: the six fixed keys defaulted with `... or default`, plus
`doc_name` injected from the ingestion call. -/
def canonMetadata (m : Metadata) (doc_name : String) : Metadata :=
  [("source", orDefault (m.get "source") (.str "")),
   ("content_type", orDefault (m.get "content_type") (.str "text/plain")),
   ("title", orDefault (m.get "title") (.str "")),
   ("description", orDefault (m.get "description") (.str "")),
   ("language", orDefault (m.get "language") (.str "en")),
   ("doc_name", .str doc_name),
   ("start_index", orDefault (m.get "start_index") (.int 0))]

/-- Embeds the `Document(...)` construction of `seed_milvus` (lines 50-64):
a fresh document with `page_content=doc.get('page_content') or ''` and the
canonical metadata. -/
def normalizeLocal (doc_name : String) (doc : Document) : Document :=
  { page_content := orDefault doc.page_content (.str "")
    metadata := canonMetadata doc.metadata doc_name }

/-- Embeds one iteration of the `for doc in documents` loop of
`seed_milvus_live` (lines 101-111): the record after `doc.metadata = metadata`;
`page_content` is not touched by the loop. -/
def normalizeLive (doc_name : String) (doc : Document) : Document :=
  { page_content := doc.page_content
    metadata := canonMetadata doc.metadata doc_name }

/-- The list comprehension of `seed_milvus` lines 50-64: a new list of fresh
documents; `local_data` is only read. -/
def seedMilvusDocs (local_data : List Document) (doc_name : String) :
    List Document :=
  List.map (normalizeLocal doc_name) local_data

/-- The state of `local_data` after the comprehension of lines 50-64 runs:
the comprehension constructs new `Document` objects and never assigns into
`local_data`, so it is returned unchanged. -/
def seedMilvusLocalDataAfter (local_data : List Document) (_doc_name : String) :
    List Document :=
  local_data

/-- The state of the crawled `documents` list after the in-place loop of
`seed_milvus_live` lines 101-111: each element had `doc.metadata` reassigned
to the canonical mapping. -/
def seedMilvusLiveDocsAfter (documents : List Document) (doc_name : String) :
    List Document :=
  List.map (normalizeLive doc_name) documents

/-- The fixed key set of the canonical metadata schema, in the order the
dictionary literal lists them. -/
def canonKeys : List String :=
  ["source", "content_type", "title", "description", "language",
   "doc_name", "start_index"]

/-- Embeds `'_'`-to-space substitution, `filename.replace('_', ' ')` applied
to a name with single-character pattern and replacement. -/
def underscoreToSpace (s : String) : String :=
  String.mk (List.map (fun c => if c = '_' then ' ' else c) s.toList)

/-- Embeds `filename.rsplit('.', 1)[0]`: everything before the last dot, or
the whole string when there is no dot. -/
def stripLastExt (s : String) : String :=
  match List.dropWhile (fun c => c ≠ '.') s.toList.reverse with
  | [] => s
  | _ :: rest => String.mk rest.reverse

/-- Embeds line 28 of `load_data_from_local`:
`filename.rsplit('.', 1)[0].replace('_', ' ')`. -/
def docNameOfFilename (filename : String) : String :=
  underscoreToSpace (stripLastExt filename)

/-- Hexadecimal digit characters, `'0'..'9'` then `'a'..'f'`. -/
def hexChar (d : Nat) : Char :=
  if d < 10 then Char.ofNat (48 + d) else Char.ofNat (87 + d)

/-- Modelled from the spec: `uuid4()` (Python standard library, outside this
repository) produces a fresh random 128-bit value, unique with overwhelming
probability; `str(...)` formats it in hexadecimal.  The random supply is
modelled as a counter threaded through the pipeline, formatted as a
hexadecimal string, so that freshness is exact rather than probabilistic. -/
def uuidStr (k : Nat) : String :=
  String.mk (List.map hexChar (Nat.digits 16 k))

/-- Embeds `[str(uuid4()) for _ in range(n)]` (lines 69 and 113) over the
modelled supply: the next `n` fresh identifiers starting at counter `g`. -/
def assignIds (g n : Nat) : List String :=
  List.map (fun i => uuidStr (g + i)) (List.range n)

/-- A collection: entries of (identifier, document), in insertion order. -/
abbrev Collection : Type := List (String × Document)

/-- The vector index: collections by name; `Option.none` means the collection
was never created. -/
def Index : Type := String → Option Collection

/-- An index in which no collection exists. -/
def Index.empty : Index := fun _ => Option.none

/-- Replaces (or creates) the collection named `c`. -/
def Index.setColl (idx : Index) (c : String) (col : Collection) : Index :=
  fun n => if n = c then Option.some col else idx n

/-- Modelled from the spec: the lifecycle modes of the Index Session Manager
(section 4.3).  `seed_milvus` selects Replace by passing `drop_old=True` to
the Milvus constructor (line 76), `seed_milvus_live` selects Append by
omitting it (lines 115-119), and `connect_to_milvus` is the read-only
connector (section 4.4); the constructor itself belongs to `langchain_milvus`,
outside this repository. -/
inductive Mode where
  | Replace
  | Append
  | ReadOnly
deriving DecidableEq, Repr

/-- Errors of the spec's taxonomy (section 7) reachable from the modelled
operations. -/
inductive IngestError where
  | MalformedSourceData
  | CollectionNotFound
deriving DecidableEq, Repr

/-- Modelled from the spec: `open(index_uri, collection_name, mode)` of the
Index Session Manager (section 4.3).  Replace drops and recreates the
collection; Append leaves an existing collection as-is and creates a missing
one empty; ReadOnly fails with `CollectionNotFound` on a missing collection
and never writes. -/
def openSession (mode : Mode) (c : String) (idx : Index) :
    Except IngestError Index :=
  match mode with
  | .Replace => .ok (idx.setColl c [])
  | .Append =>
      match idx c with
      | Option.some _ => .ok idx
      | Option.none => .ok (idx.setColl c [])
  | .ReadOnly =>
      match idx c with
      | Option.some _ => .ok idx
      | Option.none => .error .CollectionNotFound

/-- Modelled from the spec: one upsert into a collection (section 6): an
existing identifier is overwritten in place, a fresh one is appended. -/
def upsert (col : Collection) (p : String × Document) : Collection :=
  if List.any col (fun q => q.1 = p.1) then
    List.map (fun q => if q.1 = p.1 then p else q) col
  else
    col ++ [p]

/-- Modelled from the spec: `session.commit(documents, ids)` /
`add_documents(documents=..., ids=...)` (lines 79 and 120): upserts each
(identifier, document) pair in order into the collection `c`. -/
def commit (c : String) (docs : List Document) (ids : List String)
    (idx : Index) : Index :=
  idx.setColl c (List.foldl upsert ((idx c).getD []) (ids.zip docs))

/-- The mutable state an ingestion call touches: the external index and the
modelled uuid supply. -/
structure PipelineState where
  index : Index
  gen : Nat

/-- Embeds `load_data_from_local` (lines 12-28).  File reading and JSON
parsing are host I/O; their outcome enters as `parsed` (`Option.none` when
the file is unreadable or malformed, surfaced as `MalformedSourceData` per the
spec's taxonomy).  On success the parsed records are paired with the document
name derived from the filename on line 28. -/
def load_data_from_local (parsed : Option (List Document)) (filename : String) :
    Except IngestError (List Document × String) :=
  match parsed with
  | Option.none => .error .MalformedSourceData
  | Option.some data => .ok (data, docNameOfFilename filename)

/-- Embeds `seed_milvus` (lines 30-81): load the local file, normalize every
record (lines 50-64), generate one uuid per document (line 69), open the
collection with `drop_old=True` (Replace, lines 72-77), and commit
(line 79).  A load failure propagates before any index interaction, exactly
as the exception on lines 24-25 aborts the call before line 72 runs. -/
def seed_milvus (loaded : Except IngestError (List Document × String))
    (c : String) (st : PipelineState) :
    Except IngestError Unit × PipelineState :=
  match loaded with
  | .error e => (.error e, st)
  | .ok (local_data, doc_name) =>
      let documents := seedMilvusDocs local_data doc_name
      let uuids := assignIds st.gen documents.length
      match openSession .Replace c st.index with
      | .error e => (.error e, st)
      | .ok idx1 =>
          (.ok (), ⟨commit c documents uuids idx1, st.gen + documents.length⟩)

/-- Embeds `seed_milvus_live` (lines 83-122): normalize the crawled documents
in place (lines 101-111), generate one uuid per document (line 113), open the
collection without `drop_old` (Append, lines 115-119), and commit (line 120). -/
def seed_milvus_live (crawled : List Document) (doc_name c : String)
    (st : PipelineState) : Except IngestError Unit × PipelineState :=
  let documents := seedMilvusLiveDocsAfter crawled doc_name
  let uuids := assignIds st.gen documents.length
  match openSession .Append c st.index with
  | .error e => (.error e, st)
  | .ok idx1 =>
      (.ok (), ⟨commit c documents uuids idx1, st.gen + documents.length⟩)

/-- Embeds `connect_to_milvus` (lines 124-142) as the spec's `connect_readonly`
(section 4.4): open the collection in ReadOnly mode, performing no write; the
index is returned alongside so that its final state is observable. -/
def connect_to_milvus (c : String) (idx : Index) :
    Except IngestError Index × Index :=
  match openSession .ReadOnly c idx with
  | .error e => (.error e, idx)
  | .ok opened => (.ok opened, idx)

/-- The spec's defaulting table (section 3): the documented default of each of
the six optional metadata fields; `Option.none` for keys outside the table. -/
def specFieldDefault (k : String) : Option Value :=
  if k = "source" then Option.some (.str "")
  else if k = "content_type" then Option.some (.str "text/plain")
  else if k = "title" then Option.some (.str "")
  else if k = "description" then Option.some (.str "")
  else if k = "language" then Option.some (.str "en")
  else if k = "start_index" then Option.some (.int 0)
  else Option.none

lemma truthy_ne_none {v : Value} (h : v.truthy = true) : v ≠ Value.none := by
  cases v <;> simp_all [Value.truthy]

lemma orDefault_ne_none {v d : Value} (hd : d ≠ Value.none) :
    orDefault v d ≠ Value.none := by
  unfold orDefault
  split
  · exact truthy_ne_none (by assumption)
  · exact hd

end SeedData

namespace SeedData

/-- C1: normalization in both `seed_milvus` and `seed_milvus_live` produces a
document whose metadata holds exactly the six fixed keys plus `doc_name`, each
populated with the raw value when present and truthy and with its documented
default otherwise, never missing and never `None`; content is defaulted to the
empty string on the local path, and on the live path (where crawled content is
a string) a falsy content is already the empty string. -/
theorem normalize_defaulting (doc : Document) (dn : String) :
    Metadata.keys (normalizeLocal dn doc).metadata = canonKeys ∧
    Metadata.keys (normalizeLive dn doc).metadata = canonKeys ∧
    (∀ k d, specFieldDefault k = Option.some d →
      Metadata.get (normalizeLocal dn doc).metadata k =
        (if (Metadata.get doc.metadata k).truthy then Metadata.get doc.metadata k
         else d) ∧
      Metadata.get (normalizeLive dn doc).metadata k =
        (if (Metadata.get doc.metadata k).truthy then Metadata.get doc.metadata k
         else d)) ∧
    Metadata.get (normalizeLocal dn doc).metadata "doc_name" = Value.str dn ∧
    (∀ p ∈ (normalizeLocal dn doc).metadata, p.2 ≠ Value.none) ∧
    (∀ p ∈ (normalizeLive dn doc).metadata, p.2 ≠ Value.none) ∧
    (normalizeLocal dn doc).page_content =
      (if doc.page_content.truthy then doc.page_content else Value.str "") ∧
    (normalizeLive dn doc).page_content = doc.page_content ∧
    (∀ s, doc.page_content = Value.str s → (Value.str s).truthy = false →
      (normalizeLive dn doc).page_content = Value.str "") := by
  refine ⟨rfl, rfl, ?_, rfl, ?_, ?_, rfl, rfl, ?_⟩
  · intro k d hk
    unfold specFieldDefault at hk
    split_ifs at hk with h1 h2 h3 h4 h5 h6 <;> cases hk <;> subst_vars <;>
      exact ⟨rfl, rfl⟩
  · intro p hp
    simp only [normalizeLocal, canonMetadata, List.mem_cons,
      List.not_mem_nil, or_false] at hp
    rcases hp with h | h | h | h | h | h | h <;> subst h <;>
      first
        | exact orDefault_ne_none (by simp)
        | simp
  · intro p hp
    simp only [normalizeLive, canonMetadata, List.mem_cons,
      List.not_mem_nil, or_false] at hp
    rcases hp with h | h | h | h | h | h | h <;> subst h <;>
      first
        | exact orDefault_ne_none (by simp)
        | simp
  · intro s hs htruthy
    simp only [Value.truthy, ne_eq, decide_eq_false_iff_not, not_not] at htruthy
    subst htruthy
    simpa [normalizeLive] using hs

/-- Witness for C1 at a concrete record with no metadata: the `language` field
comes out as its documented default. -/
theorem normalize_defaulting_witness :
    Metadata.get (normalizeLocal "d" ⟨Value.none, []⟩).metadata "language" =
      Value.str "en" := by
  have h := ((normalize_defaulting ⟨Value.none, []⟩ "d").2.2.1 "language"
    (Value.str "en") (by rfl)).1
  exact h.trans (by decide)

/-- C4: `connect_to_milvus`, the read-only connector, invoked on a collection
name that was never created, fails with `CollectionNotFound` and leaves the
index exactly as it was: no collection is created and nothing is written. -/
theorem connect_readonly_missing (c : String) (idx : Index)
    (h : idx c = Option.none) :
    connect_to_milvus c idx = (.error .CollectionNotFound, idx) := by
  simp [connect_to_milvus, openSession, h]

/-- Witness for C4 on the empty index. -/
theorem connect_readonly_missing_witness :
    connect_to_milvus "docs" Index.empty =
      (.error .CollectionNotFound, Index.empty) :=
  connect_readonly_missing "docs" Index.empty rfl

/-- C9: when the local file is unreadable or malformed, `seed_milvus` surfaces
`MalformedSourceData` and the pipeline state — index included — is returned
untouched: no session is opened and no collection is created, dropped or
written.  (In the source the exception escapes `load_data_from_local` at
line 47, before the `Milvus` constructor on line 72 ever runs.) -/
theorem seed_milvus_malformed_aborts (filename c : String)
    (st : PipelineState) :
    seed_milvus (load_data_from_local Option.none filename) c st =
      (.error .MalformedSourceData, st) := rfl

lemma map_get_doc_name (f : Document → Document) (dn : String)
    (hf : ∀ d, Metadata.get (f d).metadata "doc_name" = Value.str dn)
    (docs : List Document) :
    List.map (fun d => Metadata.get d.metadata "doc_name") (List.map f docs)
      = List.replicate docs.length (Value.str dn) := by
  induction docs with
  | nil => rfl
  | cons a l ih => simp [hf, ih, List.replicate_succ]

/-- C5: on both entry points, every normalized document of a batch carries
`doc_name` equal to the ingestion call's `doc_name` argument — whatever
`doc_name`-like value the raw metadata held — and the batch keeps its length
(one output per input, in input order, since both paths map over the input). -/
theorem doc_name_injection (docs : List Document) (dn : String) :
    List.map (fun d => Metadata.get d.metadata "doc_name")
        (seedMilvusDocs docs dn)
      = List.replicate docs.length (Value.str dn) ∧
    List.map (fun d => Metadata.get d.metadata "doc_name")
        (seedMilvusLiveDocsAfter docs dn)
      = List.replicate docs.length (Value.str dn) ∧
    (seedMilvusDocs docs dn).length = docs.length ∧
    (seedMilvusLiveDocsAfter docs dn).length = docs.length := by
  refine ⟨?_, ?_, ?_, ?_⟩
  · exact map_get_doc_name (normalizeLocal dn) dn (fun d => rfl) docs
  · exact map_get_doc_name (normalizeLive dn) dn (fun d => rfl) docs
  · simp [seedMilvusDocs]
  · simp [seedMilvusLiveDocsAfter]

/-- Counterexample to C8 as stated: the live path normalizes in place
(`doc.metadata = metadata`, line 111), so a crawled record whose metadata is
not already canonical — here one with an extra key — is changed by
normalization. -/
theorem normalize_purity_counterexample :
    seedMilvusLiveDocsAfter
        [⟨Value.str "body", [("title", Value.str "T"), ("extra", Value.str "x")]⟩]
        "d"
      ≠ [⟨Value.str "body", [("title", Value.str "T"), ("extra", Value.str "x")]⟩] := by
  decide

/-- C8 as amended: normalization on the local path is pure — `local_data` is
left unchanged, fresh documents are built — while on the live path each
crawled record is updated in place: its content is untouched but its metadata
mapping is replaced by the canonical one. -/
theorem normalize_purity_amended (docs : List Document) (dn : String) :
    seedMilvusLocalDataAfter docs dn = docs ∧
    List.map Document.page_content (seedMilvusLiveDocsAfter docs dn)
      = List.map Document.page_content docs ∧
    List.map Document.metadata (seedMilvusLiveDocsAfter docs dn)
      = List.map (fun d => canonMetadata d.metadata dn) docs := by
  refine ⟨rfl, ?_, ?_⟩ <;>
    simp [seedMilvusLiveDocsAfter, normalizeLive, List.map_map, Function.comp_def]

/-- C10: in both entry points the identifier list handed to the commit is
built with exactly one fresh identifier per normalized document, so
`len(documents) == len(ids)` holds by construction for every batch, the empty
one included. -/
theorem commit_batch_aligned (local_data crawled : List Document)
    (dn : String) (g : Nat) :
    (assignIds g (seedMilvusDocs local_data dn).length).length
      = (seedMilvusDocs local_data dn).length ∧
    (assignIds g (seedMilvusLiveDocsAfter crawled dn).length).length
      = (seedMilvusLiveDocsAfter crawled dn).length ∧
    (assignIds g (seedMilvusDocs ([] : List Document) dn).length).length
      = 0 := by
  simp [assignIds, seedMilvusDocs, seedMilvusLiveDocsAfter]

lemma hexChar_fin_inj : ∀ a b : Fin 16, hexChar a.val = hexChar b.val → a = b := by
  decide

lemma hexChar_inj {a b : Nat} (ha : a < 16) (hb : b < 16)
    (h : hexChar a = hexChar b) : a = b :=
  congrArg Fin.val (hexChar_fin_inj ⟨a, ha⟩ ⟨b, hb⟩ h)

lemma map_hexChar_inj : ∀ l1 l2 : List Nat, (∀ d ∈ l1, d < 16) →
    (∀ d ∈ l2, d < 16) → List.map hexChar l1 = List.map hexChar l2 → l1 = l2
  | [], [], _, _, _ => rfl
  | [], _ :: _, _, _, h => by simp at h
  | _ :: _, [], _, _, h => by simp at h
  | a :: l1, b :: l2, h1, h2, h => by
      simp only [List.map_cons, List.cons.injEq] at h
      have hab : a = b :=
        hexChar_inj (h1 a (by simp)) (h2 b (by simp)) h.1
      have htail := map_hexChar_inj l1 l2 (fun d hd => h1 d (by simp [hd]))
        (fun d hd => h2 d (by simp [hd])) h.2
      simp [hab, htail]

lemma uuidStr_inj {a b : Nat} (h : uuidStr a = uuidStr b) : a = b := by
  have hd : List.map hexChar (Nat.digits 16 a)
      = List.map hexChar (Nat.digits 16 b) := congrArg String.data h
  exact Nat.digits.injective 16
    (map_hexChar_inj _ _ (fun d hdd => Nat.digits_lt_base (by norm_num) hdd)
      (fun d hdd => Nat.digits_lt_base (by norm_num) hdd) hd)

lemma assignIds_length (g n : Nat) : (assignIds g n).length = n := by
  simp [assignIds]

lemma mem_assignIds {a : String} {g n : Nat} :
    a ∈ assignIds g n ↔ ∃ i, i < n ∧ uuidStr (g + i) = a := by
  simp [assignIds, List.mem_map, List.mem_range]

lemma assignIds_nodup (g n : Nat) : (assignIds g n).Nodup :=
  (List.nodup_range n).map (fun i j hij => by
    have := uuidStr_inj hij
    omega)

lemma assignIds_disjoint {g1 n1 g2 n2 : Nat} (h : g1 + n1 ≤ g2) {a : String}
    (h1 : a ∈ assignIds g1 n1) (h2 : a ∈ assignIds g2 n2) : False := by
  obtain ⟨i, hi, hia⟩ := mem_assignIds.1 h1
  obtain ⟨j, hj, hja⟩ := mem_assignIds.1 h2
  have := uuidStr_inj (hia.trans hja.symm)
  omega

/-- C7: modelling `uuid4` as a fresh supply threaded through the pipeline,
every batch of `n ≥ 1` identifiers is pairwise distinct, a later draw never
repeats an earlier one, and each entry point advances the supply past the
identifiers it consumed — so two calls, even over identical content, get
disjoint identifiers; `assignIds` takes only a count, never the documents. -/
theorem assign_ids_distinct (g n m : Nat) (c dn : String)
    (d crawled : List Document) (st : PipelineState) (_h : 1 ≤ n) :
    (assignIds g n).length = n ∧
    (assignIds g n).Nodup ∧
    (∀ a ∈ assignIds g n, a ∉ assignIds (g + n) m) ∧
    (seed_milvus (.ok (d, dn)) c st).2.gen
      = st.gen + (seedMilvusDocs d dn).length ∧
    (seed_milvus_live crawled dn c st).2.gen
      = st.gen + (seedMilvusLiveDocsAfter crawled dn).length := by
  refine ⟨assignIds_length g n, assignIds_nodup g n,
    fun a h1 h2 => assignIds_disjoint le_rfl h1 h2, rfl, ?_⟩
  cases hcol : st.index c <;> simp [seed_milvus_live, openSession, hcol]

/-- Witness for C7: the first two identifiers are distinct from each other
and from the three drawn by a subsequent call. -/
theorem assign_ids_distinct_witness :
    (assignIds 0 2).Nodup ∧ ∀ a ∈ assignIds 0 2, a ∉ assignIds 2 3 := by
  have h := assign_ids_distinct 0 2 3 "c" "d" [] [] ⟨Index.empty, 0⟩
    (by decide)
  exact ⟨h.2.1, h.2.2.1⟩

lemma setColl_same (idx : Index) (c : String) (col : Collection) :
    idx.setColl c col c = Option.some col := by
  simp [Index.setColl]

lemma upsert_fresh (col : Collection) (p : String × Document)
    (h : ∀ q ∈ col, p.1 ≠ q.1) : upsert col p = col ++ [p] := by
  have hc : List.any col (fun q => q.1 = p.1) ≠ true := by
    simp only [ne_eq, List.any_eq_true, decide_eq_true_eq]
    push_neg
    intro q hq
    exact fun hqp => h q hq hqp.symm
  simp [upsert, hc]

lemma foldl_upsert_append : ∀ (ps : List (String × Document))
    (col : Collection), (∀ p ∈ ps, ∀ q ∈ col, p.1 ≠ q.1) →
    (List.map Prod.fst ps).Nodup → List.foldl upsert col ps = col ++ ps
  | [], col, _, _ => by simp
  | p :: ps, col, hfresh, hnd => by
      have h1 : upsert col p = col ++ [p] :=
        upsert_fresh col p (hfresh p (by simp))
      simp only [List.map_cons, List.nodup_cons] at hnd
      have hf2 : ∀ r ∈ ps, ∀ q ∈ col ++ [p], r.1 ≠ q.1 := by
        intro r hr q hq
        rcases List.mem_append.1 hq with hq | hq
        · exact hfresh r (by simp [hr]) q hq
        · simp only [List.mem_singleton] at hq
          subst hq
          intro hrp
          exact hnd.1 (hrp ▸ List.mem_map_of_mem Prod.fst hr)
      have h2 := foldl_upsert_append ps (col ++ [p]) hf2 hnd.2
      simp [List.foldl_cons, h1, h2]

lemma seed_milvus_ok_run (dl : List Document) (dn c : String)
    (st : PipelineState) :
    (seed_milvus (.ok (dl, dn)) c st).2.index c
      = Option.some ((assignIds st.gen (seedMilvusDocs dl dn).length).zip
          (seedMilvusDocs dl dn)) ∧
    (seed_milvus (.ok (dl, dn)) c st).2.gen
      = st.gen + (seedMilvusDocs dl dn).length := by
  constructor
  · have hfold := foldl_upsert_append
      ((assignIds st.gen (seedMilvusDocs dl dn).length).zip
        (seedMilvusDocs dl dn)) []
      (by intro p hp q hq; cases hq)
      (by rw [List.map_fst_zip _ _
            (le_of_eq (assignIds_length st.gen (seedMilvusDocs dl dn).length))]
          exact assignIds_nodup _ _)
    show (commit c (seedMilvusDocs dl dn)
      (assignIds st.gen (seedMilvusDocs dl dn).length)
      (st.index.setColl c [])) c = _
    simp [commit, Index.setColl, hfold]
  · rfl

lemma seed_milvus_live_run (crawled : List Document) (dn c : String)
    (st : PipelineState) (col0 : Collection)
    (h0 : (st.index c).getD [] = col0)
    (hfresh : ∀ a ∈ assignIds st.gen (seedMilvusLiveDocsAfter crawled dn).length,
      ∀ q ∈ col0, a ≠ q.1) :
    (seed_milvus_live crawled dn c st).2.index c
      = Option.some (col0 ++
          (assignIds st.gen (seedMilvusLiveDocsAfter crawled dn).length).zip
            (seedMilvusLiveDocsAfter crawled dn)) ∧
    (seed_milvus_live crawled dn c st).2.gen
      = st.gen + (seedMilvusLiveDocsAfter crawled dn).length := by
  have hzipfresh : ∀ p ∈ (assignIds st.gen
        (seedMilvusLiveDocsAfter crawled dn).length).zip
        (seedMilvusLiveDocsAfter crawled dn), ∀ q ∈ col0, p.1 ≠ q.1 := by
    intro p hp q hq
    exact hfresh p.1 (List.of_mem_zip hp).1 q hq
  have hnd : (List.map Prod.fst ((assignIds st.gen
        (seedMilvusLiveDocsAfter crawled dn).length).zip
        (seedMilvusLiveDocsAfter crawled dn))).Nodup := by
    rw [List.map_fst_zip _ _
      (le_of_eq (assignIds_length st.gen (seedMilvusLiveDocsAfter crawled dn).length))]
    exact assignIds_nodup _ _
  have hfold := foldl_upsert_append _ col0 hzipfresh hnd
  cases hcol : st.index c with
  | none =>
      have hc0 : col0 = [] := by rw [← h0, hcol]; rfl
      subst hc0
      refine ⟨?_, ?_⟩
      · simp only [seed_milvus_live, openSession, hcol, commit, Index.setColl,
          if_pos rfl, if_true, Option.getD_some]
        rw [hfold]
      · simp [seed_milvus_live, openSession, hcol]
  | some col =>
      have hc0 : col0 = col := by rw [← h0, hcol]; rfl
      subst hc0
      refine ⟨?_, ?_⟩
      · simp only [seed_milvus_live, openSession, hcol, commit, Index.setColl,
          if_pos rfl, if_true, Option.getD_some]
        rw [hfold]
      · simp [seed_milvus_live, openSession, hcol]

/-- C2: local-file ingestion opens its session in Replace mode
(`drop_old=True`), so ingesting a nonempty batch into a collection and then a
second batch into the same collection leaves exactly the second batch's
documents, under the identifiers drawn by the second call — nothing of the
first batch survives. -/
theorem replace_semantics (d1 d2 : List Document) (n1 n2 c : String)
    (st : PipelineState) (_h1 : d1 ≠ []) :
    List.map Prod.snd
        (((seed_milvus (.ok (d2, n2)) c
            (seed_milvus (.ok (d1, n1)) c st).2).2.index c).getD [])
      = seedMilvusDocs d2 n2 ∧
    List.map Prod.fst
        (((seed_milvus (.ok (d2, n2)) c
            (seed_milvus (.ok (d1, n1)) c st).2).2.index c).getD [])
      = assignIds (st.gen + (seedMilvusDocs d1 n1).length)
          (seedMilvusDocs d2 n2).length := by
  have h1 := seed_milvus_ok_run d1 n1 c st
  have h2 := seed_milvus_ok_run d2 n2 c (seed_milvus (.ok (d1, n1)) c st).2
  rw [h2.1]
  simp only [Option.getD_some]
  rw [h1.2]
  constructor
  · exact List.map_snd_zip _ _ (le_of_eq (assignIds_length _ _).symm)
  · exact List.map_fst_zip _ _ (le_of_eq (assignIds_length _ _))

/-- Witness for C2 with two concrete one-record batches on a fresh index:
the surviving documents are exactly the normalized second batch. -/
theorem replace_semantics_witness :
    List.map Prod.snd
        (((seed_milvus (.ok (([⟨Value.str "b", []⟩] : List Document), "n2"))
            "col"
            (seed_milvus (.ok (([⟨Value.str "a", []⟩] : List Document), "n1"))
              "col" ⟨Index.empty, 0⟩).2).2.index "col").getD [])
      = seedMilvusDocs [⟨Value.str "b", []⟩] "n2" :=
  (replace_semantics [⟨Value.str "a", []⟩] [⟨Value.str "b", []⟩] "n1" "n2"
    "col" ⟨Index.empty, 0⟩ (by decide)).1

/-- C3: live-crawl ingestion opens its session in Append mode, so ingesting
batch A and then batch B into the same (initially absent) collection yields
the union keyed by identifier: A's entries survive unchanged as the prefix,
B's entries follow under fresh identifiers, and the identifiers of the two
batches are pairwise distinct — nothing is lost or overwritten. -/
theorem append_semantics (A B : List Document) (nA nB c : String)
    (st : PipelineState) (h0 : st.index c = Option.none) :
    (seed_milvus_live B nB c (seed_milvus_live A nA c st).2).2.index c
      = Option.some
          ((assignIds st.gen (seedMilvusLiveDocsAfter A nA).length).zip
            (seedMilvusLiveDocsAfter A nA) ++
           (assignIds (st.gen + (seedMilvusLiveDocsAfter A nA).length)
              (seedMilvusLiveDocsAfter B nB).length).zip
            (seedMilvusLiveDocsAfter B nB)) ∧
    (assignIds st.gen (seedMilvusLiveDocsAfter A nA).length ++
      assignIds (st.gen + (seedMilvusLiveDocsAfter A nA).length)
        (seedMilvusLiveDocsAfter B nB).length).Nodup := by
  have hA := seed_milvus_live_run A nA c st [] (by rw [h0]; rfl)
    (by intro a ha q hq; cases hq)
  have hIdxA : (seed_milvus_live A nA c st).2.index c
      = Option.some ((assignIds st.gen (seedMilvusLiveDocsAfter A nA).length).zip
          (seedMilvusLiveDocsAfter A nA)) := by
    rw [hA.1]
    simp
  have hfreshB : ∀ a ∈ assignIds (seed_milvus_live A nA c st).2.gen
      (seedMilvusLiveDocsAfter B nB).length,
      ∀ q ∈ (assignIds st.gen (seedMilvusLiveDocsAfter A nA).length).zip
        (seedMilvusLiveDocsAfter A nA), a ≠ q.1 := by
    intro a ha q hq haq
    rw [hA.2] at ha
    exact assignIds_disjoint le_rfl (haq ▸ (List.of_mem_zip hq).1) ha
  have hB := seed_milvus_live_run B nB c (seed_milvus_live A nA c st).2
    ((assignIds st.gen (seedMilvusLiveDocsAfter A nA).length).zip
      (seedMilvusLiveDocsAfter A nA))
    (by rw [hIdxA]; rfl) hfreshB
  constructor
  · rw [hB.1, hA.2]
  · rw [List.nodup_append]
    exact ⟨assignIds_nodup _ _, assignIds_nodup _ _,
      fun a h1 h2 => assignIds_disjoint le_rfl h1 h2⟩

/-- Witness for C3 with two concrete one-record crawled batches on a fresh
index: the final collection is the union of both batches and all identifiers
are distinct. -/
theorem append_semantics_witness :
    ((seed_milvus_live [⟨Value.str "b", []⟩] "nB" "col"
        (seed_milvus_live [⟨Value.str "a", []⟩] "nA" "col"
          ⟨Index.empty, 0⟩).2).2.index "col"
      = Option.some
          ((assignIds 0
              (seedMilvusLiveDocsAfter [⟨Value.str "a", []⟩] "nA").length).zip
            (seedMilvusLiveDocsAfter [⟨Value.str "a", []⟩] "nA") ++
           (assignIds
              (0 + (seedMilvusLiveDocsAfter [⟨Value.str "a", []⟩] "nA").length)
              (seedMilvusLiveDocsAfter [⟨Value.str "b", []⟩] "nB").length).zip
            (seedMilvusLiveDocsAfter [⟨Value.str "b", []⟩] "nB"))) ∧
    (assignIds 0 (seedMilvusLiveDocsAfter [⟨Value.str "a", []⟩] "nA").length ++
      assignIds
        (0 + (seedMilvusLiveDocsAfter [⟨Value.str "a", []⟩] "nA").length)
        (seedMilvusLiveDocsAfter [⟨Value.str "b", []⟩] "nB").length).Nodup :=
  append_semantics [⟨Value.str "a", []⟩] [⟨Value.str "b", []⟩] "nA" "nB" "col"
    ⟨Index.empty, 0⟩ rfl

lemma dropWhile_append_all {p : Char → Bool} {l1 l2 : List Char}
    (h : ∀ c ∈ l1, p c) :
    List.dropWhile p (l1 ++ l2) = List.dropWhile p l2 := by
  induction l1 with
  | nil => rfl
  | cons a l ih =>
      simp only [List.cons_append, List.dropWhile_cons]
      rw [h a (by simp)]
      simp only [if_true]
      exact ih (fun c hc => h c (by simp [hc]))

lemma dropWhile_all {p : Char → Bool} {l : List Char} (h : ∀ c ∈ l, p c) :
    List.dropWhile p l = [] := by
  have h2 : List.dropWhile p (l ++ []) = List.dropWhile p [] :=
    dropWhile_append_all h
  simpa using h2

lemma stripLastExt_append (base ext : String) (hext : '.' ∉ ext.toList) :
    stripLastExt (base ++ "." ++ ext) = base := by
  have hdrop : List.dropWhile (fun c => c ≠ '.')
      (base ++ "." ++ ext).toList.reverse = '.' :: base.toList.reverse := by
    have hdata : (base ++ "." ++ ext).toList
        = base.toList ++ '.' :: ext.toList := by
      simp [String.toList, String.data_append]
    rw [hdata, List.reverse_append, List.reverse_cons, List.append_assoc]
    have hall : ∀ c ∈ ext.toList.reverse, decide (c ≠ '.') = true := by
      intro c hc
      simp only [decide_eq_true_eq]
      intro hcc
      subst hcc
      exact hext (List.mem_reverse.1 hc)
    rw [dropWhile_append_all hall]
    simp [List.dropWhile_cons]
  unfold stripLastExt
  rw [hdrop]
  simp

lemma stripLastExt_nodot (s : String) (h : '.' ∉ s.toList) :
    stripLastExt s = s := by
  have hall : ∀ c ∈ s.toList.reverse, decide (c ≠ '.') = true := by
    intro c hc
    simp only [decide_eq_true_eq]
    intro hcc
    subst hcc
    exact h (List.mem_reverse.1 hc)
  unfold stripLastExt
  rw [dropWhile_all hall]

/-- C6: for the local-file path, the injected `doc_name` is the filename with
the part after the last dot (and the dot) removed and each underscore turned
into a space, and a dotless filename keeps everything but its underscores:
`load_data_from_local` pairs the parsed records with exactly that name. -/
theorem doc_name_from_filename (base ext s : String) (parsed : List Document)
    (hext : '.' ∉ ext.toList) (hs : '.' ∉ s.toList) :
    docNameOfFilename (base ++ "." ++ ext) = underscoreToSpace base ∧
    docNameOfFilename s = underscoreToSpace s ∧
    load_data_from_local (Option.some parsed) (base ++ "." ++ ext)
      = .ok (parsed, underscoreToSpace base) := by
  have h1 : docNameOfFilename (base ++ "." ++ ext) = underscoreToSpace base := by
    unfold docNameOfFilename
    rw [stripLastExt_append base ext hext]
  refine ⟨h1, ?_, ?_⟩
  · unfold docNameOfFilename
    rw [stripLastExt_nodot s hs]
  · simp [load_data_from_local, h1]

/-- Witness for C6: `stack_overflow.json` yields the document name
`stack overflow`. -/
theorem doc_name_from_filename_witness :
    docNameOfFilename "stack_overflow.json" = "stack overflow" := by
  have h := (doc_name_from_filename "stack_overflow" "json" "x" []
    (by decide) (by decide)).1
  exact h.trans (by decide)

end SeedData
